import Mathlib

/-!
Verification of the OCT lesion-area measurement tool
(files finalrun.py and tempCodeRunnerFile.py).

The automatic pipeline (finalrun.py, OCTLesionAutoApp.process_image) is
embedded stage by stage over integer grids: masks are total functions from
integer cells (row, col) to natural pixel values, meaningful on the h by w
domain and zero outside it.  Pixel values are Nat (uint8 arrays never exceed
255 in the source), calibrated areas are exact rationals.  OpenCV library
calls are embedded by their documented semantics on these grids:
adaptive mean thresholding, erosion / dilation as neighbourhood min / max,
connected components with outer-border tracing and shoelace contour area
(findContours / contourArea), polygon filling (drawContours / fillPoly) as
boundary-inclusive even-odd membership on pixel centres.

The manual tracing tool (tempCodeRunnerFile.py, LesionAreaApp) is embedded
as an explicit state machine over the fields the Python object mutates
(image, drawing, points, displayed label).
-/

namespace OCT

/-- A cell of an image or mask: (row, col) integer coordinates. -/
abbrev Cell : Type := ℤ × ℤ

/-- Masks and single-channel images are total maps from cells to pixel
values; pipeline stages keep them zero outside the h by w domain. -/
abbrev Mask : Type := Cell → ℕ

/-- A loaded grayscale image: dimensions plus pixel data
(cv2.imread(..., IMREAD_GRAYSCALE) yields an h by w uint8 array). -/
structure Image where
  h : ℕ
  w : ℕ
  pix : Mask

/-- Cell (r, c) lies inside an h by w grid. -/
def inDomB (h w : ℕ) (p : Cell) : Bool :=
  0 ≤ p.1 && p.1 < (h : ℤ) && 0 ≤ p.2 && p.2 < (w : ℤ)

/-- All cells of an h by w grid in row-major scan order (the order numpy
and OpenCV traverse an array). -/
def scanCells (h w : ℕ) : List Cell :=
  (List.range h).flatMap (fun r => (List.range w).map (fun c => (Int.ofNat r, Int.ofNat c)))

/-! ## Calibration and area formulas (Step 6 of process_image, and
LesionAreaApp.calculate_area)

finalrun.py line 20:   self.mm_per_px = 0.01172
finalrun.py line 97:   damaged_px = int(np.sum(final_mask > 0))
finalrun.py line 100:  area_mm2 = damaged_px * (self.mm_per_px ** 2)
tempCodeRunnerFile.py line 22: self.pixel_spacing_mm = 0.006
tempCodeRunnerFile.py line 98: pixel_area = np.sum(mask)
tempCodeRunnerFile.py line 99: mm2_area = pixel_area * (self.pixel_spacing_mm ** 2)
-/

/-- Hardcoded calibration of the automatic pipeline, mm per pixel:
the Python literal 0.01172 (finalrun.py line 20), as an exact rational. -/
def mm_per_px : ℚ := mkRat 1172 100000

/-- Hardcoded calibration of the manual tracing tool, mm per pixel:
the Python literal 0.006 (tempCodeRunnerFile.py line 22), as an exact
rational. -/
def pixel_spacing_mm : ℚ := mkRat 6 1000

/-- damaged_px = int(np.sum(final_mask > 0)): number of strictly positive
cells of an h by w mask (finalrun.py line 97). -/
def damagedPx (h w : ℕ) (m : Mask) : ℕ :=
  (scanCells h w).countP (fun p => decide (0 < m p))

/-- area_mm2 = damaged_px * mm_per_px ** 2 (finalrun.py line 100),
computed exactly over the rationals. -/
def areaMm2Auto (h w : ℕ) (m : Mask) : ℚ :=
  (damagedPx h w m : ℚ) * mm_per_px ^ 2

/-- pixel_area = np.sum(mask): the sum of all cells of an h by w mask
(tempCodeRunnerFile.py line 98; numpy sums uint8 into a wide accumulator,
so no overflow occurs). -/
def pixelSum (h w : ℕ) (m : Mask) : ℕ :=
  ((scanCells h w).map m).sum

/-- mm2_area = pixel_area * pixel_spacing_mm ** 2
(tempCodeRunnerFile.py line 99). -/
def areaMm2Manual (h w : ℕ) (m : Mask) : ℚ :=
  (pixelSum h w m : ℚ) * pixel_spacing_mm ^ 2

/-! ## Morphological cleaning (Step 3 of process_image)

finalrun.py line 79: kernel = cv2.getStructuringElement(cv2.MORPH_ELLIPSE, (3, 3))
finalrun.py line 80: opened = cv2.morphologyEx(thresh, cv2.MORPH_OPEN, kernel, iterations=2)

The 3 by 3 elliptical structuring element is the 4-connected cross.  OpenCV
implements MORPH_OPEN with iterations=2 as erosion applied twice followed by
dilation applied twice.  Erosion is the neighbourhood minimum (pixels outside
the image act as the maximal value, the default border for erosion), dilation
the neighbourhood maximum (outside pixels act as the minimal value); the
structuring element is symmetric, so kernel mirroring is immaterial. -/

/-- The 3 by 3 MORPH_ELLIPSE structuring element: centre plus the four
4-connected offsets (row, col). -/
def SE : List Cell := [(0, 0), (0, 1), (0, -1), (1, 0), (-1, 0)]

/-- The in-image cells reached from p by structuring-element offsets. -/
def nbrs (h w : ℕ) (p : Cell) : List Cell :=
  (SE.map (fun k => (p.1 + k.1, p.2 + k.2))).filter (inDomB h w)

/-- One erosion by the cross kernel: neighbourhood minimum over in-image
cells, out-of-image neighbours acting as 255 (the erosion border value for
uint8 data). -/
def erodeStep (h w : ℕ) (m : Mask) : Mask := fun p =>
  if inDomB h w p then ((nbrs h w p).map m).foldr min 255 else 0

/-- One dilation by the cross kernel: neighbourhood maximum over in-image
cells, out-of-image neighbours acting as 0 (the dilation border value). -/
def dilateStep (h w : ℕ) (m : Mask) : Mask := fun p =>
  if inDomB h w p then ((nbrs h w p).map m).foldr max 0 else 0

/-- Step 3 of process_image: cv2.morphologyEx(thresh, MORPH_OPEN, kernel,
iterations=2), i.e. erode twice then dilate twice. -/
def opening2 (h w : ℕ) (m : Mask) : Mask :=
  dilateStep h w (dilateStep h w (erodeStep h w (erodeStep h w m)))

/-! ## Adaptive binarization (Step 2 of process_image)

finalrun.py lines 73-76:
  thresh = cv2.adaptiveThreshold(blur, 255, cv2.ADAPTIVE_THRESH_MEAN_C,
                                 cv2.THRESH_BINARY_INV, 35, 5)

ADAPTIVE_THRESH_MEAN_C computes per pixel the mean of the 35 by 35
neighbourhood (replicated border, rounded to the nearest integer); with
THRESH_BINARY_INV the output is 0 where the source pixel exceeds
mean - 5 and the max value 255 elsewhere. -/

/-- Clamp a coordinate into [0, n-1] (BORDER_REPLICATE). -/
def clampCoord (n : ℕ) (x : ℤ) : ℤ := max 0 (min x ((n : ℤ) - 1))

/-- The 35 offsets -17 .. 17 of the blockSize=35 window. -/
def offsets35 : List ℤ := (List.range 35).map (fun i => (i : ℤ) - 17)

/-- Sum of the 35 by 35 replicated-border neighbourhood of p. -/
def boxSum35 (img : Image) (p : Cell) : ℕ :=
  (offsets35.flatMap (fun dr => offsets35.map (fun dc =>
    img.pix (clampCoord img.h (p.1 + dr), clampCoord img.w (p.2 + dc))))).sum

/-- The local mean of the 35 by 35 window, rounded to the nearest integer
(1225 window cells). -/
def localMean35 (img : Image) (p : Cell) : ℕ := (boxSum35 img p + 612) / 1225

/-- Step 2 of process_image: mean-adaptive inverted binarization with
maxValue 255, blockSize 35 and offset C = 5. -/
def threshStage (img : Image) : Mask := fun p =>
  if inDomB img.h img.w p then
    if (localMean35 img p : ℤ) - 5 < (img.pix p : ℤ) then 0 else 255
  else 0

/-- A mask is two-valued when every cell holds 0 or 255. -/
def TwoValued (m : Mask) : Prop := ∀ p, m p = 0 ∨ m p = 255

/-! ## Region filtering (Step 4 of process_image)

finalrun.py lines 83-88:
  mask_clean = np.zeros_like(opened)
  contours, _ = cv2.findContours(opened, cv2.RETR_EXTERNAL, cv2.CHAIN_APPROX_SIMPLE)
  for cnt in contours:
      area = cv2.contourArea(cnt)
      if 100 < area < 3000:
          cv2.drawContours(mask_clean, [cnt], -1, 255, -1)

cv2.findContours with RETR_EXTERNAL yields one outer contour per EXTREME
OUTER maximal 8-connected foreground component: a component lying inside a
hole of another component is not retrieved in this mode (Suzuki border
following restricted to outermost borders).  Each retrieved contour is the
cyclic sequence of the component's outer border pixels
(CHAIN_APPROX_SIMPLE merely drops collinear intermediate points, which
leaves the polygon and hence its area unchanged).  cv2.contourArea is the
Green-formula (shoelace) area of that polygon of pixel centres.
cv2.drawContours with thickness -1 fills the region bounded by the
contour, boundary included.

We embed the components by fuelled flood fill in scan order, the
extreme-outer restriction by discarding components whose scan-first pixel
lies inside another component's filled outer contour, the outer contour by
Moore border tracing from the scan-first pixel with Jacob stopping
criterion, the area by the exact shoelace formula over the rationals, and
the fill as boundary-inclusive even-odd polygon membership of pixel
centres.  The fuelled recursions are written with Nat.rec directly, and
visited-cell bookkeeping mirrors set membership in a bitmask of cell keys,
so that concrete instances reduce iteratively inside the kernel. -/

/-- Foreground test used by findContours: in-image and nonzero. -/
def fgB (h w : ℕ) (m : Mask) (p : Cell) : Bool := inDomB h w p && (m p != 0)

/-- The eight neighbourhood offsets (8-connectivity). -/
def SE8 : List Cell := [(-1, -1), (-1, 0), (-1, 1), (0, -1), (0, 1), (1, -1), (1, 0), (1, 1)]

/-- The eight neighbours of a cell. -/
def neighbors8 (p : Cell) : List Cell := SE8.map (fun k => (p.1 + k.1, p.2 + k.2))

/-- Injective key of a cell of the extended grid [-1, h] x [-1, w] (every
cell the flood fill or border tracing ever probes), for bitmask
bookkeeping. -/
def encCell (w : ℕ) (p : Cell) : ℕ := ((p.1 + 1) * ((w : ℤ) + 2) + (p.2 + 1)).toNat

/-- The bitmask holding the keys of a list of cells: membership in the
list of pairwise distinct cells is membership of the key in the mask. -/
def bitsOf (w : ℕ) (l : List Cell) : ℕ := l.foldl (fun n p => n ||| (1 <<< encCell w p)) 0

/-- Fuelled worklist flood fill collecting one 8-connected foreground
component, as (cell list in discovery order, bitmask of the same cells). -/
def floodAux (isFg : Cell → Bool) (enc : Cell → ℕ) (fuel : ℕ) :
    List Cell → List Cell × ℕ → List Cell × ℕ :=
  @Nat.rec (fun _ => List Cell → List Cell × ℕ → List Cell × ℕ)
    (fun _ acc => acc)
    (fun _ ih queue acc =>
      match queue with
      | [] => acc
      | q :: rest =>
        if acc.2.testBit (enc q) then ih rest acc
        else if isFg q then ih (neighbors8 q ++ rest) (acc.1 ++ [q], acc.2 ||| (1 <<< enc q))
        else ih rest acc)
    fuel

/-- Flood fill from one seed (the fuel bounds the worklist: at most
1 + 8 h w cells ever enter it). -/
def floodFrom (h w : ℕ) (m : Mask) (start : Cell) : List Cell × ℕ :=
  floodAux (fgB h w m) (encCell w) (9 * (h * w) + 9) [start] ([], 0)

/-- The 8-connected component of a starting cell. -/
def componentAt (h w : ℕ) (m : Mask) (start : Cell) : List Cell :=
  (floodFrom h w m start).1

/-- The row-major scan collecting one component per first-encountered
unvisited foreground cell (the bitmask records the visited cells). -/
def scanAux (h w : ℕ) (m : Mask) (fuel : ℕ) :
    List Cell → List (List Cell) → ℕ → List (List Cell) :=
  @Nat.rec (fun _ => List Cell → List (List Cell) → ℕ → List (List Cell))
    (fun _ comps _ => comps)
    (fun _ ih cells comps bits =>
      match cells with
      | [] => comps
      | p :: rest =>
        if fgB h w m p = true ∧ bits.testBit (encCell w p) = false then
          ih rest (comps ++ [(floodFrom h w m p).1]) (bits ||| (floodFrom h w m p).2)
        else ih rest comps bits)
    fuel

/-- ALL maximal 8-connected foreground components, discovered in row-major
scan order.  cv2.findContours with RETR_EXTERNAL retrieves the extreme
outer ones among them only - see extContours. -/
def components8 (h w : ℕ) (m : Mask) : List (List Cell) :=
  scanAux h w m (h * w + 1) (scanCells h w) [] 0

/-- The eight directions in clockwise order for Moore border tracing,
starting at west: W, NW, N, NE, E, SE, S, SW (row, col offsets). -/
def dirList : List Cell :=
  [(0, -1), (-1, -1), (-1, 0), (-1, 1), (0, 1), (1, 1), (1, 0), (1, -1)]

/-- Direction by index modulo 8. -/
def dir8 (i : ℕ) : Cell := dirList.getD (i % 8) (0, -1)

/-- Index of a direction offset in dirList. -/
def dirIndex (d : Cell) : ℕ := dirList.findIdx (fun k => decide (k = d))

/-- Move one step from a cell in direction index i. -/
def stepDir (p : Cell) (i : ℕ) : Cell := (p.1 + (dir8 i).1, p.2 + (dir8 i).2)

/-- Clockwise sweep: the first foreground direction strictly after the
backtrack direction bdir. -/
def findFgDir (isFg : Cell → Bool) (cur : Cell) (bdir : ℕ) : Option ℕ :=
  ((List.range 8).map (fun j => (bdir + 1 + j) % 8)).find? (fun i => isFg (stepDir cur i))

/-- Fuelled Moore border following with Jacob stopping criterion: stop on
re-entering the start pixel with the initial backtrack direction. -/
def traceAux (isFg : Cell → Bool) (start : Cell) (startBdir : ℕ) (fuel : ℕ) :
    Cell → ℕ → List Cell → List Cell :=
  @Nat.rec (fun _ => Cell → ℕ → List Cell → List Cell)
    (fun _ _ acc => acc)
    (fun _ ih cur bdir acc =>
      match findFgDir isFg cur bdir with
      | none => acc
      | some i =>
        let next := stepDir cur i
        let back := stepDir cur (i + 7)
        let nb := dirIndex (back.1 - next.1, back.2 - next.2)
        if next = start ∧ nb = startBdir then acc
        else ih next nb (acc ++ [next]))
    fuel

/-- The outer border of the component of a scan-first foreground pixel
(whose west neighbour is background), as the cyclic pixel sequence
findContours produces.  An isolated pixel yields the one-point contour. -/
def traceBoundary (h w : ℕ) (isFg : Cell → Bool) (s : Cell) : List Cell :=
  match findFgDir isFg s 0 with
  | none => [s]
  | some _ => s :: traceAux isFg s 0 (8 * (h * w) + 8) s 0 []

/-- The row-major first cell of a component (the pixel border following
starts from). -/
def scanFirst (comp : List Cell) : Cell :=
  comp.foldl (fun a b => if b.1 < a.1 ∨ (b.1 = a.1 ∧ b.2 < a.2) then b else a)
    (comp.headD (0, 0))

/-- The outer contour of a component (the foreground probe tests
membership in the component through its bitmask of cell keys; components
are 8-maximal, so this agrees with probing the mask itself). -/
def contourOf (h w : ℕ) (comp : List Cell) : List Cell :=
  traceBoundary h w (fun p => (bitsOf w comp).testBit (encCell w p)) (scanFirst comp)

/-- The closed edge list of a polygon (each vertex to its cyclic
successor). -/
def closedEdges (poly : List Cell) : List (Cell × Cell) :=
  match poly with
  | [] => []
  | p :: t => poly.zip (t ++ [p])

/-- Twice the signed shoelace area of a polygon of pixel centres. -/
def shoelaceDouble (poly : List Cell) : ℤ :=
  ((closedEdges poly).map (fun e => e.1.2 * e.2.1 - e.2.2 * e.1.1)).sum

/-- cv2.contourArea: the absolute Green-formula area, |shoelace| / 2
(exact as a rational; contourArea returns it as an exactly representable
double, so the strict comparisons against 100 and 3000 are exact). -/
def contourArea (poly : List Cell) : ℚ := mkRat ((shoelaceDouble poly).natAbs : ℤ) 2

/-- The band test of finalrun.py line 87: 100 < area < 3000, strict on
both sides. -/
def keepContour (poly : List Cell) : Bool :=
  decide ((100 : ℚ) < contourArea poly) && decide (contourArea poly < (3000 : ℚ))

/-- q lies on the closed segment from a to b (integer points): collinear
and inside the bounding box. -/
def onSeg (a b q : Cell) : Bool :=
  decide ((b.1 - a.1) * (q.2 - a.2) = (b.2 - a.2) * (q.1 - a.1)) &&
  decide (min a.1 b.1 ≤ q.1) && decide (q.1 ≤ max a.1 b.1) &&
  decide (min a.2 b.2 ≤ q.2) && decide (q.2 ≤ max a.2 b.2)

/-- q lies on the polygon boundary. -/
def onBoundary (poly : List Cell) (q : Cell) : Bool :=
  (closedEdges poly).any (fun e => onSeg e.1 e.2 q)

/-- One edge crossing test of the even-odd ray cast (ray in the +col
direction), in exact integer arithmetic. -/
def rayCross (a b q : Cell) : Bool :=
  let d := b.1 - a.1
  (decide (a.1 ≤ q.1) != decide (b.1 ≤ q.1)) &&
  (if 0 < d then decide ((q.2 - a.2) * d < (b.2 - a.2) * (q.1 - a.1))
   else decide ((b.2 - a.2) * (q.1 - a.1) < (q.2 - a.2) * d))

/-- Even-odd interior test: parity of ray crossings. -/
def evenOddB (poly : List Cell) (q : Cell) : Bool :=
  (closedEdges poly).foldl (fun acc e => if rayCross e.1 e.2 q then !acc else acc) false

/-- cv2.drawContours / cv2.fillPoly membership: a pixel centre inside the
polygon or on its boundary is painted. -/
def inPolyB (poly : List Cell) (q : Cell) : Bool := onBoundary poly q || evenOddB poly q

/-- A component is nested inside another listed component: its scan-first
pixel lies inside the other component's filled outer contour (i.e. inside
one of the other component's holes). -/
def isNestedIn (h w : ℕ) (comps : List (List Cell)) (comp : List Cell) : Bool :=
  comps.any (fun other => decide (other ≠ comp) && inPolyB (contourOf h w other) (scanFirst comp))

/-- The components whose outer contours cv2.findContours retrieves in
RETR_EXTERNAL mode: only the extreme outer ones - a component nested
inside a hole of another component is never retrieved. -/
def extContours (h w : ℕ) (m : Mask) : List (List Cell) :=
  (components8 h w m).filter (fun comp => ! isNestedIn h w (components8 h w m) comp)

/-- A component contributes pixel p: its contour passes the band test and
p lies in its filled interior (inside the image). -/
def keepsAt (h w : ℕ) (p : Cell) (comp : List Cell) : Bool :=
  keepContour (contourOf h w comp) && inPolyB (contourOf h w comp) p && inDomB h w p

/-- Step 4 of process_image: start from an all-zero mask and, for every
retrieved (extreme outer) contour whose area lies strictly inside
(100, 3000), paint its filled interior with 255. -/
def maskClean (h w : ℕ) (m : Mask) : Mask :=
  (extContours h w m).foldl
    (fun acc comp =>
      if keepContour (contourOf h w comp) then
        (fun p => if inPolyB (contourOf h w comp) p && inDomB h w p then 255 else acc p)
      else acc)
    (fun _ => 0)

/-! ## Central retina ROI (Step 5 of process_image)

finalrun.py lines 91-94:
  h, w = img.shape
  roi_mask = np.zeros_like(img)
  cv2.rectangle(roi_mask, (0, int(h * 0.2)), (w, int(h * 0.85)), 255, -1)
  final_mask = cv2.bitwise_and(mask_clean, roi_mask)

cv2.rectangle takes (x, y) corner points and, with thickness -1, fills the
rectangle with BOTH corners included, clipped to the image.  So the painted
rows are int(h*0.2) .. int(h*0.85) inclusive and the painted columns are
0 .. w clipped to 0 .. w-1, i.e. every column.  For any realistic height
(far below 10^14) the Python float expressions int(h * 0.2) and
int(h * 0.85) equal the exact values h / 5 and 17 * h / 20 rounded down,
which is how we embed them. -/

/-- int(h * 0.2): the first ROI row. -/
def roiTop (h : ℕ) : ℕ := h / 5

/-- int(h * 0.85): the last ROI row (cv2.rectangle corners are inclusive). -/
def roiBot (h : ℕ) : ℕ := 17 * h / 20

/-- The filled ROI rectangle: rows roiTop .. roiBot inclusive, all
columns. -/
def roiMask (h w : ℕ) : Mask := fun p =>
  if inDomB h w p = true ∧ (roiTop h : ℤ) ≤ p.1 ∧ p.1 ≤ (roiBot h : ℤ) then 255 else 0

/-- final_mask = cv2.bitwise_and(mask_clean, roi_mask): per-cell bitwise
AND of the two uint8 masks. -/
def roiStage (h w : ℕ) (mc : Mask) : Mask := fun p => Nat.land (mc p) (roiMask h w p)

/-! ## The full automatic pipeline and its app state
(OCTLesionAutoApp in finalrun.py)

Step 1, blur = cv2.bilateralFilter(img, 9, 75, 75), is an edge-preserving
smoother whose Gaussian weights are irrational; its output is just another
grayscale image of the same shape, so the pipeline is embedded parametrically
in the smoothing transform.  No claim depends on the smoothed values. -/

/-- Steps 2-5 of process_image applied after the bilateral smoothing
(given as the pixel transform bilat of Step 1). -/
def pipelineFinal (bilat : Mask → Mask) (img : Image) : Mask :=
  roiStage img.h img.w
    (maskClean img.h img.w
      (opening2 img.h img.w
        (threshStage (Image.mk img.h img.w (bilat img.pix)))))

/-- The messages label_info of OCTLesionAutoApp can display. -/
inductive AutoMsg where
  | loadPrompt
  | loadFailed
  | damagedArea (a : ℚ)
  | saved
deriving DecidableEq

/-- The mutable state of OCTLesionAutoApp: loaded image, current mask and
displayed message. -/
structure AutoState where
  image : Option Image
  mask : Option Mask
  label : AutoMsg

/-- OCTLesionAutoApp.process_image: run the pipeline on the held image,
store the final mask and display the measured area.  (The source reads
self.image unconditionally; process_image is only called with an image
present.) -/
def processImageState (bilat : Mask → Mask) (s : AutoState) : AutoState :=
  match s.image with
  | none => s
  | some img =>
    let final := pipelineFinal bilat img
    { s with mask := some final,
             label := AutoMsg.damagedArea (areaMm2Auto img.h img.w final) }

/-- OCTLesionAutoApp.load_image after a file was chosen, given the decode
result (cv2.imread returns None on failure): on failure only the message
changes; on success the image is stored and the pipeline runs. -/
def autoLoadImage (bilat : Mask → Mask) (decoded : Option Image) (s : AutoState) :
    AutoState :=
  match decoded with
  | none => { s with label := AutoMsg.loadFailed }
  | some img => processImageState bilat { s with image := some img }

/-! ## The manual tracing tool (LesionAreaApp in tempCodeRunnerFile.py)

State: self.image, self.drawing, self.points, and the area_label text.
Traced points are float (xdata, ydata) pairs, modelled as exact rationals.
calculate_area converts them with np.array(..., dtype=np.int32) - C-style
truncation toward zero with 32-bit wraparound - and fills the polygon with
value 1 into an h by w zero mask via cv2.fillPoly. -/

/-- The messages area_label of LesionAreaApp can display. -/
inductive ManualMsg where
  | drawPrompt
  | drawClosed
  | lesionArea (a : ℚ)
deriving DecidableEq

/-- The mutable state of LesionAreaApp. -/
structure ManualState where
  image : Option Image
  drawing : Bool
  points : List (ℚ × ℚ)
  label : ManualMsg

/-- Truncation toward zero of a rational (the float-to-int C cast). -/
def truncQ (q : ℚ) : ℤ := q.num.tdiv (q.den : ℤ)

/-- Wrap an integer into the int32 range. -/
def wrap32 (z : ℤ) : ℤ := (z + 2 ^ 31) % 2 ^ 32 - 2 ^ 31

/-- np.int32 conversion of one coordinate. -/
def trunc32 (q : ℚ) : ℤ := wrap32 (truncQ q)

/-- np.array(self.points, dtype=np.int32) applied to one traced point:
points are (x, y), mask cells are (row, col) = (y, x). -/
def truncPt (pt : ℚ × ℚ) : Cell := (trunc32 pt.2, trunc32 pt.1)

/-- The int32 polygon cv2.fillPoly receives. -/
def manualPoly (pts : List (ℚ × ℚ)) : List Cell := pts.map truncPt

/-- mask = np.zeros(self.image.shape, np.uint8); cv2.fillPoly(mask, [pts], 1):
the filled-polygon 0/1 mask over the image grid. -/
def manualMask (img : Image) (pts : List (ℚ × ℚ)) : Mask := fun p =>
  if inDomB img.h img.w p = true ∧ inPolyB (manualPoly pts) p = true then 1 else 0

/-- pixel_area = np.sum(mask) for the manual polygon mask. -/
def manualPixelArea (img : Image) (pts : List (ℚ × ℚ)) : ℕ :=
  pixelSum img.h img.w (manualMask img pts)

/-- mm2_area = pixel_area * pixel_spacing_mm ** 2. -/
def manualMm2 (img : Image) (pts : List (ℚ × ℚ)) : ℚ :=
  (manualPixelArea img pts : ℚ) * pixel_spacing_mm ^ 2

/-- LesionAreaApp.calculate_area: with fewer than 3 points only the
message changes (points kept); otherwise the polygon area is computed and
displayed.  (With no image loaded the source would raise on
self.image.shape; that path is unreachable from the release handler as
exercised here.) -/
def calculateArea (s : ManualState) : ManualState :=
  if s.points.length < 3 then { s with label := ManualMsg.drawClosed }
  else
    match s.image with
    | none => s
    | some img => { s with label := ManualMsg.lesionArea (manualMm2 img s.points) }

/-- LesionAreaApp.load_image: if a path was chosen the decode result is
stored unconditionally (no None check in this variant). -/
def manualLoadImage (pathChosen : Bool) (decoded : Option Image) (s : ManualState) :
    ManualState :=
  if pathChosen then { s with image := decoded } else s

/-- LesionAreaApp.clear_points: empty the point list and reset the
message (the drawing flag is not touched). -/
def clearPoints (s : ManualState) : ManualState :=
  { s with points := [], label := ManualMsg.drawPrompt }

/-- LesionAreaApp.on_click: ignored outside the axes or with no image;
otherwise start a fresh trace at the event position. -/
def onClick (inax : Bool) (pos : ℚ × ℚ) (s : ManualState) : ManualState :=
  match inax, s.image with
  | false, _ => s
  | true, none => s
  | true, some _ => { s with drawing := true, points := [pos] }

/-- LesionAreaApp.on_motion: while drawing and inside the axes, append the
event position. -/
def onMotion (inax : Bool) (pos : ℚ × ℚ) (s : ManualState) : ManualState :=
  if s.drawing = true ∧ inax = true then { s with points := s.points ++ [pos] } else s

/-- LesionAreaApp.on_release: ignored unless drawing; otherwise stop
drawing and compute the area. -/
def onRelease (s : ManualState) : ManualState :=
  if s.drawing = false then s else calculateArea { s with drawing := false }

/-! ## Concrete fixtures used by witnesses and counterexamples -/

/-- A mask holding 255 on the listed cells and 0 elsewhere. -/
def maskOfCells (l : List Cell) : Mask := fun p => if p ∈ l then 255 else 0

/-- A 2 by 2 foreground block inside a 4 by 4 grid: one 8-connected
component of 4 pixels whose outer contour has shoelace area 1. -/
def mask2x2 : Mask := maskOfCells [(1, 1), (1, 2), (2, 1), (2, 2)]

/-- The hollow outline of a 12 by 12 square inside a 14 by 14 grid:
44 foreground pixels, outer contour of shoelace area 121. -/
def ringCells : List Cell :=
  ((List.range 12).map (fun i => ((1 : ℤ), (i : ℤ) + 1))) ++
  ((List.range 12).map (fun i => ((12 : ℤ), (i : ℤ) + 1))) ++
  ((List.range 12).map (fun i => ((i : ℤ) + 1, (1 : ℤ)))) ++
  ((List.range 12).map (fun i => ((i : ℤ) + 1, (12 : ℤ))))

/-- The ring mask. -/
def maskRing : Mask := maskOfCells ringCells

/-- A single foreground pixel at row 17 of a 20 by 2 grid (note
17 = 0.85 * 20). -/
def maskRow17 : Mask := maskOfCells [(17, 0)]

/-- The 1-pixel-thick outline of the axis-aligned rectangle with corners
(r1, c1) and (r2, c2). -/
def onRectOutline (r1 c1 r2 c2 : ℤ) (p : Cell) : Bool :=
  r1 ≤ p.1 && p.1 ≤ r2 && c1 ≤ p.2 && p.2 ≤ c2 &&
  (p.1 == r1 || p.1 == r2 || p.2 == c1 || p.2 == c2)

/-- A nested configuration inside a 58 by 58 grid: the outline of a 56 by
56 square (220 pixels, outer contour area 55 * 55 = 3025, outside the
band) enclosing, inside its hole, the outline of a 12 by 12 square
(44 pixels, outer contour area 121, inside the band). -/
def maskNested : Mask := fun p =>
  if onRectOutline 1 1 56 56 p || onRectOutline 23 23 34 34 p then 255 else 0

/-- An all-zero 8 by 8 test image for the manual tool fixtures. -/
def imgW : Image := Image.mk 8 8 (fun _ => 0)

/-- Manual-tool state: image loaded, not drawing, no points. -/
def sIdleNoPts : ManualState := ManualState.mk (some imgW) false [] ManualMsg.drawPrompt

/-- Manual-tool state: tracing in progress with one collected point. -/
def sTracing1 : ManualState := ManualState.mk (some imgW) true [(1, 1)] ManualMsg.drawPrompt

/-- Manual-tool state: not drawing, one stale point. -/
def sIdle1 : ManualState := ManualState.mk (some imgW) false [(1, 1)] ManualMsg.drawPrompt

/-- Manual-tool state at release with exactly two traced points. -/
def sRelease2 : ManualState :=
  ManualState.mk (some imgW) true [(1, 1), (2, 2)] ManualMsg.drawPrompt

/-- Manual-tool state at release with three non-collinear traced points. -/
def sRelease3 : ManualState :=
  ManualState.mk (some imgW) true [(1, 1), (3, 1), (2, 3)] ManualMsg.drawPrompt

/-- Exactly three pairwise non-collinear trace points (nonzero cross
product of the two edge vectors). -/
def NonCollinear3 (pts : List (ℚ × ℚ)) : Prop :=
  match pts with
  | [a, b, c] => (b.1 - a.1) * (c.2 - a.2) ≠ (c.1 - a.1) * (b.2 - a.2)
  | _ => False

/-- All traced points truncate into the image grid (guaranteed by the
matplotlib event guard event.inaxes == self.ax). -/
def PtsInImage (img : Image) (pts : List (ℚ × ℚ)) : Prop :=
  ∀ q ∈ pts, inDomB img.h img.w (truncPt q) = true

/-- Two traced point sequences that differ but truncate to the same int32
polygon. -/
def ptsA : List (ℚ × ℚ) := [(0, 0), (3, 0), (0, 3)]

/-- See ptsA. -/
def ptsB : List (ℚ × ℚ) := [(mkRat 1 2, mkRat 1 4), (3, 0), (0, 3)]

/-- Membership in scanCells is exactly the domain predicate. -/
theorem mem_scanCells (h w : ℕ) (p : Cell) :
    p ∈ scanCells h w ↔ inDomB h w p = true := by
  constructor
  · intro hmem
    obtain ⟨r0, hr0, hmap⟩ := List.mem_flatMap.mp hmem
    obtain ⟨c0, hc0, hpc⟩ := List.mem_map.mp hmap
    have hr1 := List.mem_range.mp hr0
    have hc1 := List.mem_range.mp hc0
    cases hpc
    simp only [inDomB, Bool.and_eq_true, decide_eq_true_eq, Int.ofNat_eq_coe]
    omega
  · intro hin
    simp only [inDomB, Bool.and_eq_true, decide_eq_true_eq] at hin
    refine List.mem_flatMap.mpr ⟨p.1.toNat, List.mem_range.mpr (by omega), ?_⟩
    refine List.mem_map.mpr ⟨p.2.toNat, List.mem_range.mpr (by omega), ?_⟩
    cases p
    simp only [Prod.mk.injEq, Int.ofNat_eq_coe]
    omega

/-- Summing a list of 0/1 mask values counts the positive ones. -/
theorem sum_map_eq_countP (m : Mask) (l : List Cell)
    (h01 : ∀ p ∈ l, m p = 0 ∨ m p = 1) :
    (l.map m).sum = l.countP (fun p => decide (0 < m p)) := by
  induction l with
  | nil => simp
  | cons q l ih =>
    have hq := h01 q (List.mem_cons_self q l)
    have hl : ∀ p ∈ l, m p = 0 ∨ m p = 1 := fun p hp => h01 p (List.mem_cons_of_mem q hp)
    simp only [List.map_cons, List.sum_cons, List.countP_cons, ih hl]
    rcases hq with h0 | h1
    · simp [h0]
    · simp only [h1, decide_eq_true_eq]
      rw [if_pos (by omega : 0 < 1)]
      omega

/-- Summing a 0/1-valued mask counts its foreground cells. -/
theorem pixelSum_eq_countP (h w : ℕ) (m : Mask)
    (h01 : ∀ p ∈ scanCells h w, m p = 0 ∨ m p = 1) :
    pixelSum h w m = (scanCells h w).countP (fun p => decide (0 < m p)) :=
  sum_map_eq_countP m (scanCells h w) h01

theorem foldr_max_le_iff (l : List ℕ) (y : ℕ) :
    l.foldr max 0 ≤ y ↔ ∀ x ∈ l, x ≤ y := by
  induction l with
  | nil => simp
  | cons a l ih => simp [max_le_iff, ih]

theorem le_foldr_min_iff (l : List ℕ) (x : ℕ) :
    x ≤ l.foldr min 255 ↔ x ≤ 255 ∧ ∀ v ∈ l, x ≤ v := by
  induction l with
  | nil => simp
  | cons a l ih =>
    simp only [List.foldr_cons, le_min_iff, ih, List.mem_cons]
    constructor
    · rintro ⟨ha, h255, hall⟩
      exact ⟨h255, fun v hv => by rcases hv with rfl | hv; exact ha; exact hall v hv⟩
    · rintro ⟨h255, hall⟩
      exact ⟨hall a (Or.inl rfl), h255, fun v hv => hall v (Or.inr hv)⟩

theorem le_foldr_max (l : List ℕ) (x : ℕ) (hx : x ∈ l) : x ≤ l.foldr max 0 := by
  induction l with
  | nil => cases hx
  | cons a l ih =>
    rcases List.mem_cons.mp hx with rfl | hx
    · exact le_max_left _ _
    · exact le_trans (ih hx) (le_max_right _ _)

theorem foldr_min_le (l : List ℕ) (x : ℕ) (hx : x ∈ l) : l.foldr min 255 ≤ x := by
  induction l with
  | nil => cases hx
  | cons a l ih =>
    rcases List.mem_cons.mp hx with rfl | hx
    · exact min_le_left _ _
    · exact le_trans (min_le_right _ _) (ih hx)

theorem foldr_min_le_255 (l : List ℕ) : l.foldr min 255 ≤ 255 := by
  induction l with
  | nil => exact le_refl _
  | cons a l ih => exact le_trans (min_le_right _ _) ih

/-- The structuring element is symmetric under negation. -/
theorem SE_symm (k : Cell) (hk : k ∈ SE) : (-k.1, -k.2) ∈ SE := by
  fin_cases hk <;> decide

/-- Characterization of neighbourhood membership. -/
theorem mem_nbrs (h w : ℕ) (p q : Cell) :
    q ∈ nbrs h w p ↔ inDomB h w q = true ∧ ∃ k ∈ SE, q = (p.1 + k.1, p.2 + k.2) := by
  simp only [nbrs, List.mem_filter, List.mem_map]
  constructor
  · rintro ⟨⟨k, hk, rfl⟩, hdom⟩
    exact ⟨hdom, k, hk, rfl⟩
  · rintro ⟨hdom, k, hk, rfl⟩
    exact ⟨⟨k, hk, rfl⟩, hdom⟩

/-- Neighbourhood symmetry (for in-image cells). -/
theorem mem_nbrs_symm (h w : ℕ) (p q : Cell) (hp : inDomB h w p = true)
    (hq : q ∈ nbrs h w p) : p ∈ nbrs h w q := by
  obtain ⟨hdq, k, hk, rfl⟩ := (mem_nbrs h w p q).mp hq
  refine (mem_nbrs h w _ p).mpr ⟨hp, (-k.1, -k.2), SE_symm k hk, ?_⟩
  cases p
  simp only [Prod.mk.injEq]
  omega

theorem erodeStep_le_255 (h w : ℕ) (m : Mask) (p : Cell) : erodeStep h w m p ≤ 255 := by
  unfold erodeStep
  split
  · exact foldr_min_le_255 _
  · omega

theorem dilateStep_le_255 (h w : ℕ) (m : Mask) (h255 : ∀ p, m p ≤ 255) (p : Cell) :
    dilateStep h w m p ≤ 255 := by
  unfold dilateStep
  split
  · rw [foldr_max_le_iff]
    rintro x hx
    obtain ⟨q, _, rfl⟩ := List.mem_map.mp hx
    exact h255 q
  · omega

theorem erodeStep_zero_outside (h w : ℕ) (m : Mask) (p : Cell)
    (hp : inDomB h w p = false) : erodeStep h w m p = 0 := by
  unfold erodeStep
  rw [if_neg (by simp [hp])]

theorem dilateStep_zero_outside (h w : ℕ) (m : Mask) (p : Cell)
    (hp : inDomB h w p = false) : dilateStep h w m p = 0 := by
  unfold dilateStep
  rw [if_neg (by simp [hp])]

/-- The morphological adjunction for one erosion / dilation step: for masks
that vanish outside the image and stay within uint8 range,
dilation is left adjoint to erosion. -/
theorem dilate_erode_adjunction (h w : ℕ) (X Y : Mask)
    (hX0 : ∀ p, inDomB h w p = false → X p = 0)
    (hX255 : ∀ p, X p ≤ 255) :
    (∀ p, dilateStep h w X p ≤ Y p) ↔ (∀ p, X p ≤ erodeStep h w Y p) := by
  constructor
  · intro hd p
    by_cases hp : inDomB h w p = true
    · unfold erodeStep
      rw [if_pos hp, le_foldr_min_iff]
      refine ⟨hX255 p, ?_⟩
      rintro v hv
      obtain ⟨q, hq, rfl⟩ := List.mem_map.mp hv
      refine le_trans ?_ (hd q)
      have hqd : inDomB h w q = true := ((mem_nbrs h w p q).mp hq).1
      unfold dilateStep
      rw [if_pos hqd]
      exact le_foldr_max _ _ (List.mem_map.mpr ⟨p, mem_nbrs_symm h w p q hp hq, rfl⟩)
    · rw [hX0 p (by simpa using hp)]
      omega
  · intro he p
    by_cases hp : inDomB h w p = true
    · unfold dilateStep
      rw [if_pos hp, foldr_max_le_iff]
      rintro x hx
      obtain ⟨q, hq, rfl⟩ := List.mem_map.mp hx
      refine le_trans (he q) ?_
      have hqd : inDomB h w q = true := ((mem_nbrs h w p q).mp hq).1
      unfold erodeStep
      rw [if_pos hqd]
      exact foldr_min_le _ _ (List.mem_map.mpr ⟨p, mem_nbrs_symm h w p q hp hq, rfl⟩)
    · rw [dilateStep_zero_outside h w X p (by simpa using hp)]
      omega

/-- The composed adjunction for two erosions / two dilations. -/
theorem dilate2_erode2_adjunction (h w : ℕ) (X Y : Mask)
    (hX0 : ∀ p, inDomB h w p = false → X p = 0)
    (hX255 : ∀ p, X p ≤ 255) :
    (∀ p, dilateStep h w (dilateStep h w X) p ≤ Y p) ↔
    (∀ p, X p ≤ erodeStep h w (erodeStep h w Y) p) := by
  rw [dilate_erode_adjunction h w (dilateStep h w X) Y
      (fun p hp => dilateStep_zero_outside h w X p hp)
      (dilateStep_le_255 h w X hX255)]
  exact dilate_erode_adjunction h w X (erodeStep h w Y) hX0 hX255

theorem dilateStep_mono (h w : ℕ) (a b : Mask) (hab : ∀ p, a p ≤ b p) (p : Cell) :
    dilateStep h w a p ≤ dilateStep h w b p := by
  unfold dilateStep
  split
  · rw [foldr_max_le_iff]
    rintro x hx
    obtain ⟨q, hq, rfl⟩ := List.mem_map.mp hx
    exact le_trans (hab q) (le_foldr_max _ _ (List.mem_map.mpr ⟨q, hq, rfl⟩))
  · exact le_refl _

/-- Opening (with the composed kernel) is anti-extensive. -/
theorem opening2_le (h w : ℕ) (m : Mask) (p : Cell) : opening2 h w m p ≤ m p := by
  have hX0 : ∀ q, inDomB h w q = false → erodeStep h w (erodeStep h w m) q = 0 :=
    fun q hq => erodeStep_zero_outside h w _ q hq
  have hX255 : ∀ q, erodeStep h w (erodeStep h w m) q ≤ 255 :=
    fun q => erodeStep_le_255 h w _ q
  exact (dilate2_erode2_adjunction h w _ m hX0 hX255).mpr (fun q => le_refl _) p

/-- C6 core lemma: the double-erode / double-dilate opening of Step 3 is
idempotent. -/
theorem opening2_idempotent (h w : ℕ) (m : Mask) (p : Cell) :
    opening2 h w (opening2 h w m) p = opening2 h w m p := by
  have hX0 : ∀ q, inDomB h w q = false → erodeStep h w (erodeStep h w m) q = 0 :=
    fun q hq => erodeStep_zero_outside h w _ q hq
  have hX255 : ∀ q, erodeStep h w (erodeStep h w m) q ≤ 255 :=
    fun q => erodeStep_le_255 h w _ q
  have hE2 : ∀ q, erodeStep h w (erodeStep h w m) q ≤
      erodeStep h w (erodeStep h w (opening2 h w m)) q :=
    (dilate2_erode2_adjunction h w _ (opening2 h w m) hX0 hX255).mp (fun q => le_refl _)
  have hge : opening2 h w m p ≤ opening2 h w (opening2 h w m) p := by
    unfold opening2
    exact dilateStep_mono h w _ _ (dilateStep_mono h w _ _ hE2) p
  exact Nat.le_antisymm (opening2_le h w (opening2 h w m) p) hge

theorem threshStage_twoValued (img : Image) : TwoValued (threshStage img) := by
  intro p
  unfold threshStage
  split
  · split
    · exact Or.inl rfl
    · exact Or.inr rfl
  · exact Or.inl rfl

theorem foldr_min_mem_01 (l : List ℕ) (hl : ∀ x ∈ l, x = 0 ∨ x = 255) :
    l.foldr min 255 = 0 ∨ l.foldr min 255 = 255 := by
  induction l with
  | nil => exact Or.inr rfl
  | cons a l ih =>
    have ha := hl a (List.mem_cons_self a l)
    have hrec := ih (fun x hx => hl x (List.mem_cons_of_mem a hx))
    simp only [List.foldr_cons]
    rcases ha with rfl | rfl <;> rcases hrec with hr | hr <;> simp [hr]

theorem foldr_max_mem_01 (l : List ℕ) (hl : ∀ x ∈ l, x = 0 ∨ x = 255) :
    l.foldr max 0 = 0 ∨ l.foldr max 0 = 255 := by
  induction l with
  | nil => exact Or.inl rfl
  | cons a l ih =>
    have ha := hl a (List.mem_cons_self a l)
    have hrec := ih (fun x hx => hl x (List.mem_cons_of_mem a hx))
    simp only [List.foldr_cons]
    rcases ha with rfl | rfl <;> rcases hrec with hr | hr <;> simp [hr]

theorem erodeStep_twoValued (h w : ℕ) (m : Mask) (hm : TwoValued m) :
    TwoValued (erodeStep h w m) := by
  intro p
  unfold erodeStep
  split
  · refine foldr_min_mem_01 _ ?_
    rintro x hx
    obtain ⟨q, _, rfl⟩ := List.mem_map.mp hx
    exact hm q
  · exact Or.inl rfl

theorem dilateStep_twoValued (h w : ℕ) (m : Mask) (hm : TwoValued m) :
    TwoValued (dilateStep h w m) := by
  intro p
  unfold dilateStep
  split
  · refine foldr_max_mem_01 _ ?_
    rintro x hx
    obtain ⟨q, _, rfl⟩ := List.mem_map.mp hx
    exact hm q
  · exact Or.inl rfl

theorem opening2_twoValued (h w : ℕ) (m : Mask) (hm : TwoValued m) :
    TwoValued (opening2 h w m) :=
  dilateStep_twoValued h w _ (dilateStep_twoValued h w _
    (erodeStep_twoValued h w _ (erodeStep_twoValued h w _ hm)))

/-- Unfolding the filter fold: a cell is painted exactly when some listed
component passes the band test and covers it. -/
theorem maskClean_foldl_any (h w : ℕ) (comps : List (List Cell)) (acc : Mask) (p : Cell) :
    (comps.foldl
      (fun acc comp =>
        if keepContour (contourOf h w comp) then
          (fun p => if inPolyB (contourOf h w comp) p && inDomB h w p then 255 else acc p)
        else acc)
      acc) p =
    if comps.any (keepsAt h w p) then 255 else acc p := by
  induction comps generalizing acc with
  | nil => simp
  | cons comp cs ih =>
    simp only [List.foldl_cons, List.any_cons, ih]
    have hks : keepsAt h w p comp =
        (keepContour (contourOf h w comp) &&
          (inPolyB (contourOf h w comp) p && inDomB h w p)) := by
      simp [keepsAt, Bool.and_assoc]
    cases hk : keepContour (contourOf h w comp) with
    | false => simp [hks, hk]
    | true =>
      cases hf : (inPolyB (contourOf h w comp) p && inDomB h w p) with
      | false =>
        simp only [hks, hk, hf, Bool.true_and, Bool.false_or, if_true]
        simp [hf]
      | true =>
        simp only [hks, hk, hf, Bool.true_and, Bool.true_or, if_true]
        split <;> simp [hf]

/-! ## Helper lemmas -/

/-- The region filter in closed form: a cell holds 255 exactly when some
component passes the band test and its filled contour covers the cell. -/
theorem maskClean_eq_ite (h w : ℕ) (m : Mask) (p : Cell) :
    maskClean h w m p =
    if (extContours h w m).any (keepsAt h w p) then 255 else 0 :=
  maskClean_foldl_any h w (extContours h w m) (fun _ => 0) p

theorem maskClean_twoValued (h w : ℕ) (m : Mask) : TwoValued (maskClean h w m) := by
  intro p
  rw [maskClean_eq_ite]
  split
  · exact Or.inr rfl
  · exact Or.inl rfl

theorem roiMask_twoValued (h w : ℕ) : TwoValued (roiMask h w) := by
  intro p
  unfold roiMask
  split
  · exact Or.inr rfl
  · exact Or.inl rfl

theorem land_twoValued (a b : ℕ) (ha : a = 0 ∨ a = 255) (hb : b = 0 ∨ b = 255) :
    Nat.land a b = 0 ∨ Nat.land a b = 255 := by
  rcases ha with rfl | rfl <;> rcases hb with rfl | rfl <;> decide

theorem roiStage_twoValued (h w : ℕ) (mc : Mask) (hmc : TwoValued mc) :
    TwoValued (roiStage h w mc) := fun p =>
  land_twoValued (mc p) (roiMask h w p) (hmc p) (roiMask_twoValued h w p)

/-! ## Claim theorems -/

/-- C6.  The Morphological Cleaner (Step 3: 3 by 3 elliptical kernel,
MORPH_OPEN with iterations=2, i.e. erode twice then dilate twice) is
idempotent: re-applied with the same parameters to its own output it
changes no cell, for every input mask (in particular every binary one). -/
theorem claim_C6_opening_idempotent (h w : ℕ) (m : Mask) (p : Cell) :
    opening2 h w (opening2 h w m) p = opening2 h w m p :=
  opening2_idempotent h w m p

/-- C9.  Every mask the automatic pipeline produces - the binarized mask,
the opened mask, the region-filtered mask and the final ROI-intersected
mask - is two-valued: every cell is 0 or 255, for every input image and
every smoothing transform. -/
theorem claim_C9_masks_two_valued (bilat : Mask → Mask) (img : Image) :
    TwoValued (threshStage (Image.mk img.h img.w (bilat img.pix))) ∧
    TwoValued (opening2 img.h img.w
      (threshStage (Image.mk img.h img.w (bilat img.pix)))) ∧
    TwoValued (maskClean img.h img.w (opening2 img.h img.w
      (threshStage (Image.mk img.h img.w (bilat img.pix))))) ∧
    TwoValued (pipelineFinal bilat img) := by
  refine ⟨threshStage_twoValued _, opening2_twoValued _ _ _ (threshStage_twoValued _),
    maskClean_twoValued _ _ _, ?_⟩
  exact roiStage_twoValued _ _ _ (maskClean_twoValued _ _ _)

set_option maxRecDepth 1000000 in
set_option maxHeartbeats 1000000000 in
/-- C1 counterexample: a mask holding an in-band component (the 12 by 12
ring, 44 pixels, measured contour area 121) nested inside the hole of an
out-of-band component (the 56 by 56 ring, measured contour area 3025):
the claim requires cell (28, 28), covered by the in-band component's
filled interior, to be foreground, but findContours with RETR_EXTERNAL
never retrieves the nested contour, so the Region Filter's output is 0
there (the out-of-band outer ring is dropped by the band test and the
inner ring is never considered). -/
theorem claim_C1_counterexample :
    (∃ comp ∈ components8 58 58 maskNested,
      (100 : ℚ) < contourArea (contourOf 58 58 comp) ∧
      contourArea (contourOf 58 58 comp) < 3000 ∧
      inPolyB (contourOf 58 58 comp) (28, 28) = true ∧
      inDomB 58 58 (28, 28) = true) ∧
    maskClean 58 58 maskNested (28, 28) = 0 := by
  decide

/-- C1 amended.  The Region Filter's output holds 255 exactly at the
cells covered by the filled interior of some EXTREME OUTER maximal
connected foreground component - cv2.findContours with RETR_EXTERNAL
retrieves only components not nested inside a hole of another component -
whose measured area (cv2.contourArea of its outer contour, see C2) lies
strictly inside the band (100, 3000), and 0 everywhere else; a retrieved
component whose area is exactly 100 or 3000, or outside the band,
contributes no foreground cell at all, and a nested component is never
considered. -/
theorem claim_C1_region_filter_band (h w : ℕ) (m : Mask) (p : Cell) :
    maskClean h w m p =
    if (∃ comp ∈ extContours h w m,
        (100 : ℚ) < contourArea (contourOf h w comp) ∧
        contourArea (contourOf h w comp) < 3000 ∧
        inPolyB (contourOf h w comp) p = true ∧ inDomB h w p = true)
    then 255 else 0 := by
  rw [maskClean_eq_ite]
  refine if_congr ?_ rfl rfl
  rw [List.any_eq_true]
  constructor
  · rintro ⟨comp, hcomp, hk⟩
    simp only [keepsAt, keepContour, Bool.and_eq_true, decide_eq_true_eq] at hk
    exact ⟨comp, hcomp, hk.1.1.1, hk.1.1.2, hk.1.2, hk.2⟩
  · rintro ⟨comp, hcomp, h1, h2, h3, h4⟩
    refine ⟨comp, hcomp, ?_⟩
    simp only [keepsAt, keepContour, Bool.and_eq_true, decide_eq_true_eq]
    exact ⟨⟨⟨h1, h2⟩, h3⟩, h4⟩

/-- C4.  The reported physical area is exactly foreground pixel count
times calibration squared, for the automatic pipeline (calibration
0.01172) and the manual polygon mode (calibration 0.006, whose 0/1 mask
sum equals its foreground count); both calibrations are positive, and an
all-background mask yields pixel count 0 and area exactly 0 without
error. -/
theorem claim_C4_area_formula :
    (0 : ℚ) < mm_per_px ∧ (0 : ℚ) < pixel_spacing_mm ∧
    (∀ (h w : ℕ) (m : Mask),
      areaMm2Auto h w m = (damagedPx h w m : ℚ) * mm_per_px ^ 2) ∧
    (∀ (img : Image) (pts : List (ℚ × ℚ)),
      manualMm2 img pts =
        (damagedPx img.h img.w (manualMask img pts) : ℚ) * pixel_spacing_mm ^ 2) ∧
    (∀ (h w : ℕ) (m : Mask), (∀ p, m p = 0) →
      damagedPx h w m = 0 ∧ areaMm2Auto h w m = 0) := by
  refine ⟨by decide, by decide, fun h w m => rfl, ?_, ?_⟩
  · intro img pts
    unfold manualMm2 manualPixelArea damagedPx
    rw [pixelSum_eq_countP]
    intro p _
    unfold manualMask
    split
    · exact Or.inr rfl
    · exact Or.inl rfl
  · intro h w m hz
    have hc : damagedPx h w m = 0 := by
      unfold damagedPx
      rw [List.countP_eq_zero]
      intro p _
      simp [hz p]
    refine ⟨hc, ?_⟩
    unfold areaMm2Auto
    rw [hc]
    simp

/-- C4 witness: the empty-mask branch instantiated at a concrete
all-zero 3 by 3 mask. -/
theorem claim_C4_area_formula_witness :
    damagedPx 3 3 (fun _ => 0) = 0 ∧ areaMm2Auto 3 3 (fun _ => 0) = 0 :=
  claim_C4_area_formula.2.2.2.2 3 3 (fun _ => 0) (fun _ => rfl)

/-- C2 counterexample: in the 4 by 4 mask holding one 2 by 2 block, the
single component the Region Filter considers has 4 foreground pixels, but
the area value the code compares against the band - cv2.contourArea of
its outer contour - is 1, not 4. -/
theorem claim_C2_counterexample :
    components8 4 4 mask2x2 = [[(1, 1), (1, 2), (2, 1), (2, 2)]] ∧
    ([(1, 1), (1, 2), (2, 1), (2, 2)] : List Cell).length = 4 ∧
    contourArea (contourOf 4 4 [(1, 1), (1, 2), (2, 1), (2, 2)]) = 1 ∧
    contourArea (contourOf 4 4 [(1, 1), (1, 2), (2, 1), (2, 2)]) ≠
      (([(1, 1), (1, 2), (2, 1), (2, 2)] : List Cell).length : ℚ) := by
  decide

/-- C2 amended: the area value the Region Filter compares against the
band is cv2.contourArea of the component's traced outer contour (the
shoelace polygon area of its border pixel centres), not the component's
foreground pixel count: every retained cell comes from a component whose
CONTOUR area lies strictly in (100, 3000). -/
theorem claim_C2_amended_contour_area (h w : ℕ) (m : Mask) (p : Cell)
    (hp : maskClean h w m p ≠ 0) :
    ∃ comp ∈ components8 h w m,
      (100 : ℚ) < contourArea (contourOf h w comp) ∧
      contourArea (contourOf h w comp) < 3000 ∧
      inPolyB (contourOf h w comp) p = true := by
  rw [maskClean_eq_ite] at hp
  by_cases hany : (extContours h w m).any (keepsAt h w p) = true
  · obtain ⟨comp, hcomp, hk⟩ := List.any_eq_true.mp hany
    have hmem : comp ∈ components8 h w m := (List.mem_filter.mp hcomp).1
    simp only [keepsAt, keepContour, Bool.and_eq_true, decide_eq_true_eq] at hk
    exact ⟨comp, hmem, hk.1.1.1, hk.1.1.2, hk.1.2⟩
  · rw [if_neg (by simpa using hany)] at hp
    exact absurd rfl hp

set_option maxRecDepth 1000000 in
/-- C2 amended witness: the hollow-ring component (44 pixels, contour
area 121) paints cell (5, 5). -/
theorem claim_C2_amended_contour_area_witness :
    maskClean 14 14 maskRing (5, 5) ≠ 0 ∧
    ∃ comp ∈ components8 14 14 maskRing,
      (100 : ℚ) < contourArea (contourOf 14 14 comp) ∧
      contourArea (contourOf 14 14 comp) < 3000 ∧
      inPolyB (contourOf 14 14 comp) (5, 5) = true := by
  have hp : maskClean 14 14 maskRing (5, 5) ≠ 0 := by decide
  exact ⟨hp, claim_C2_amended_contour_area 14 14 maskRing (5, 5) hp⟩

/-- C3 counterexample: with H = 20 the bottom bound 0.85 H = 17 is an
integer, and a foreground pixel at row 17 of the region-filtered mask
survives into the final mask - so not every foreground row is strictly
below 0.85 H, and a cell outside [0.20 H, 0.85 H) keeps its foreground
value. -/
theorem claim_C3_counterexample :
    roiStage 20 2 maskRow17 (17, 0) = 255 ∧
    (17 : ℚ) = mkRat 1700 100 ∧
    ¬ ((17 : ℚ) < mkRat 1700 100) := by
  decide

/-- C3 amended: the ROI stage keeps exactly the rows from
int(0.2 H) = roiTop to int(0.85 H) = roiBot INCLUSIVE of both ends
(cv2.rectangle paints both corners) over all columns, bitwise-ANDing the
region-filtered mask there and forcing 0 outside. -/
theorem claim_C3_amended_roi_rows (h w : ℕ) (mc : Mask) (p : Cell) :
    roiStage h w mc p =
    if inDomB h w p = true ∧ (roiTop h : ℤ) ≤ p.1 ∧ p.1 ≤ (roiBot h : ℤ)
    then Nat.land (mc p) 255 else 0 := by
  unfold roiStage roiMask
  by_cases hc : inDomB h w p = true ∧ (roiTop h : ℤ) ≤ p.1 ∧ p.1 ≤ (roiBot h : ℤ)
  · rw [if_pos hc, if_pos hc]
  · rw [if_neg hc, if_neg hc]
    exact Nat.and_zero (mc p)

/-- The first vertex of a polygon lies on its boundary. -/
theorem onSeg_left (a b : Cell) : onSeg a b a = true := by
  simp only [onSeg, Bool.and_eq_true, decide_eq_true_eq]
  refine ⟨⟨⟨⟨by ring, by omega⟩, by omega⟩, by omega⟩, by omega⟩

theorem onBoundary_head (v : Cell) (rest : List Cell) :
    onBoundary (v :: rest) v = true := by
  unfold onBoundary closedEdges
  cases rest with
  | nil =>
    simp only [List.nil_append, List.zip_cons_cons, List.zip_nil_right, List.any_cons,
      List.any_nil, Bool.or_false]
    exact onSeg_left v v
  | cons b t =>
    simp only [List.cons_append, List.zip_cons_cons, List.any_cons, Bool.or_eq_true]
    exact Or.inl (onSeg_left v b)

/-- A polygon whose first vertex truncates into the image grid fills at
least one cell. -/
theorem manualPixelArea_pos (img : Image) (a : ℚ × ℚ) (rest : List (ℚ × ℚ))
    (hin : inDomB img.h img.w (truncPt a) = true) :
    0 < manualPixelArea img (a :: rest) := by
  have hmem : truncPt a ∈ scanCells img.h img.w := (mem_scanCells img.h img.w _).mpr hin
  have hval : manualMask img (a :: rest) (truncPt a) = 1 := by
    unfold manualMask
    rw [if_pos]
    refine ⟨hin, ?_⟩
    unfold inPolyB
    rw [Bool.or_eq_true]
    exact Or.inl (onBoundary_head (truncPt a) (rest.map truncPt))
  have hone : (1 : ℕ) ∈ (scanCells img.h img.w).map (manualMask img (a :: rest)) :=
    List.mem_map.mpr ⟨truncPt a, hmem, hval⟩
  have := List.single_le_sum (l := (scanCells img.h img.w).map (manualMask img (a :: rest)))
    (fun x _ => Nat.zero_le x) 1 hone
  unfold manualPixelArea pixelSum
  omega

/-- C5.  At release while tracing: exactly 2 collected points yield the
"Draw a closed region." message with no numeric area and the point
sequence preserved (no crash: the handler is a total function); exactly 3
non-collinear points (truncating into the image, as the axes guard
ensures) yield the computed area message with a strictly positive area. -/
theorem claim_C5_release_point_count (s : ManualState) (img : Image)
    (hd : s.drawing = true) (hi : s.image = some img) :
    (s.points.length = 2 →
      (onRelease s).points = s.points ∧
      (onRelease s).label = ManualMsg.drawClosed ∧
      (onRelease s).drawing = false) ∧
    (s.points.length = 3 → NonCollinear3 s.points → PtsInImage img s.points →
      (onRelease s).label = ManualMsg.lesionArea (manualMm2 img s.points) ∧
      0 < manualMm2 img s.points) := by
  have hrel : onRelease s = calculateArea { s with drawing := false } := by
    unfold onRelease
    rw [if_neg (by simp [hd])]
  constructor
  · intro h2
    rw [hrel]
    unfold calculateArea
    rw [if_pos (by simpa using by omega : ({ s with drawing := false } : ManualState).points.length < 3)]
    exact ⟨rfl, rfl, rfl⟩
  · intro h3 hnc hin
    obtain ⟨a, b, c, habc⟩ := List.length_eq_three.mp h3
    have hpos : 0 < manualMm2 img s.points := by
      have hain : inDomB img.h img.w (truncPt a) = true := by
        refine hin a ?_
        rw [habc]
        exact List.mem_cons_self a [b, c]
      have := manualPixelArea_pos img a [b, c] hain
      unfold manualMm2
      rw [habc]
      refine mul_pos ?_ (pow_pos (by decide : (0 : ℚ) < pixel_spacing_mm) 2)
      exact_mod_cast Nat.cast_pos.mpr this
    rw [hrel]
    unfold calculateArea
    rw [if_neg (by simp [h3])]
    have himg : ({ s with drawing := false } : ManualState).image = some img := hi
    rw [himg]
    exact ⟨rfl, hpos⟩

/-- C5 witness: concrete release states with 2 and with 3 non-collinear
in-image points. -/
theorem claim_C5_release_point_count_witness :
    (onRelease sRelease2).points = [(1, 1), (2, 2)] ∧
    (onRelease sRelease2).label = ManualMsg.drawClosed ∧
    0 < manualMm2 imgW [(1, 1), (3, 1), (2, 3)] := by
  have h2 := (claim_C5_release_point_count sRelease2 imgW rfl rfl).1 rfl
  have h3 := (claim_C5_release_point_count sRelease3 imgW rfl rfl).2 rfl
    (show ((3 : ℚ) - 1) * ((3 : ℚ) - 1) ≠ ((2 : ℚ) - 1) * ((1 : ℚ) - 1) by norm_num)
    (show ∀ q ∈ ([(1, 1), (3, 1), (2, 3)] : List (ℚ × ℚ)),
      inDomB 8 8 (truncPt q) = true by decide)
  exact ⟨h2.1, h2.2.1, h3.2⟩

/-- C7 counterexample: the manual-trace variant stores the decode result
unconditionally, so a failed decode (None) replaces the previously held
image instead of leaving it unchanged - and no failure message is shown. -/
theorem claim_C7_counterexample :
    sIdleNoPts.image = some imgW ∧
    (manualLoadImage true none sIdleNoPts).image = none ∧
    (manualLoadImage true none sIdleNoPts).image ≠ sIdleNoPts.image := by
  refine ⟨rfl, rfl, ?_⟩
  intro hcon
  exact Option.noConfusion hcon

/-- C7 amended: on decode failure the automatic variant reports the
failure and leaves image and mask unchanged and runs no pipeline; the
manual variant also runs nothing and keeps points, drawing flag and label,
but overwrites its held image with None. -/
theorem claim_C7_amended_load_failure :
    (∀ (bilat : Mask → Mask) (s : AutoState),
      (autoLoadImage bilat none s).image = s.image ∧
      (autoLoadImage bilat none s).mask = s.mask ∧
      (autoLoadImage bilat none s).label = AutoMsg.loadFailed) ∧
    (∀ s : ManualState,
      (manualLoadImage true none s).points = s.points ∧
      (manualLoadImage true none s).drawing = s.drawing ∧
      (manualLoadImage true none s).label = s.label ∧
      (manualLoadImage true none s).image = none) :=
  ⟨fun _ _ => ⟨rfl, rfl, rfl⟩, fun _ => ⟨rfl, rfl, rfl, rfl⟩⟩

/-- C8 counterexample: clear_points does not reset the drawing flag, so a
clear invoked while Tracing leaves the machine in Tracing and the next
motion event appends a point with no intervening press. -/
theorem claim_C8_counterexample :
    (clearPoints sTracing1).drawing = true ∧
    (clearPoints sTracing1).points = [] ∧
    (onMotion true (2, 2) (clearPoints sTracing1)).points = [(2, 2)] := by
  refine ⟨rfl, rfl, ?_⟩
  unfold onMotion
  rw [if_pos ⟨rfl, rfl⟩]
  rfl

/-- C8 amended: clear empties the point sequence and resets the message in
any state, but keeps the drawing flag: only when the machine was Idle does
no motion event append a point until a new press. -/
theorem claim_C8_amended_clear (s : ManualState) (inax : Bool) (pos : ℚ × ℚ) :
    (clearPoints s).points = [] ∧
    (clearPoints s).drawing = s.drawing ∧
    (clearPoints s).label = ManualMsg.drawPrompt ∧
    (s.drawing = false → (onMotion inax pos (clearPoints s)).points = []) := by
  refine ⟨rfl, rfl, rfl, ?_⟩
  intro hidle
  unfold onMotion
  rw [if_neg]
  · rfl
  · rintro ⟨hdrw, _⟩
    have : (clearPoints s).drawing = false := hidle
    rw [this] at hdrw
    exact Bool.noConfusion hdrw

/-- C8 amended witness: clear from an Idle state, then a motion event
appends nothing. -/
theorem claim_C8_amended_clear_witness :
    (onMotion true (2, 2) (clearPoints sIdle1)).points = [] :=
  (claim_C8_amended_clear sIdle1 true (2, 2)).2.2.2 rfl

/-- C10.  The manual area computation depends on the traced float
coordinates only through their int32 truncation: two point sequences (of
length at least 3) with identical truncations on the same image give the
identical filled mask, pixel count and reported area. -/
theorem claim_C10_trunc_determines (img : Image) (pts1 pts2 : List (ℚ × ℚ))
    (hlen : 3 ≤ pts1.length)
    (htr : pts1.map truncPt = pts2.map truncPt) :
    (∀ p, manualMask img pts1 p = manualMask img pts2 p) ∧
    manualPixelArea img pts1 = manualPixelArea img pts2 ∧
    manualMm2 img pts1 = manualMm2 img pts2 := by
  have hpoly : manualPoly pts1 = manualPoly pts2 := htr
  have hfun : manualMask img pts1 = manualMask img pts2 := by
    funext p
    unfold manualMask
    rw [hpoly]
  have harea : manualPixelArea img pts1 = manualPixelArea img pts2 := by
    unfold manualPixelArea pixelSum
    rw [hfun]
  refine ⟨fun p => by rw [hfun], harea, ?_⟩
  unfold manualMm2
  rw [harea]

/-- C10 witness: two distinct traces with equal int32 truncations yield
the same pixel count. -/
theorem claim_C10_trunc_determines_witness :
    ptsA ≠ ptsB ∧ ptsA.map truncPt = ptsB.map truncPt ∧
    manualPixelArea imgW ptsA = manualPixelArea imgW ptsB := by
  have h1 : 3 ≤ ptsA.length := by decide
  have h2 : ptsA.map truncPt = ptsB.map truncPt := by decide
  exact ⟨by decide, h2, (claim_C10_trunc_determines imgW ptsA ptsB h1 h2).2.1⟩

end OCT
